import Mathlib

/-!
Shallow embedding of the mast math-AST library (tokenizer.go, parser.go):
a data-driven precedence-climbing parser for algebra-like expression
languages.  The Go slices of tokens become `List String`; the Go rune
classes from the unicode package are modelled on their ASCII fragment;
Go's named multiple return values `(lo []string, e Expr, err error)`
become the `POut` sum, whose `panicked` constructor models a Go runtime
panic (an index or slice-bound violation), and whose `Expr.nilE` models a
nil Go `Expr` interface value.  The two mutually recursive procedures
`parseSingle` and `parseExpr` and their three `for` loops are embedded as
one fuel-indexed step function `run` over the `Call` inductive, so that
the definitions stay structurally recursive (hence kernel-computable) and
the termination of the Go recursion is itself a theorem (fuel
convergence) rather than an assumption.
-/

set_option maxRecDepth 10000

namespace Mast

/-- Whitespace class of tokenizer.go: space, tab, vertical tab (U+000B). -/
def isWsp (r : Char) : Bool :=
  r = ' ' || r = '\t' || r = Char.ofNat 11

/-- Model of unicode.IsUpper on its ASCII fragment, as used by tokenPreds. -/
def isUpperRune (c : Char) : Bool := c.isUpper

/-- Model of unicode.IsLetter on its ASCII fragment (upper or lower case letter). -/
def isLetterRune (c : Char) : Bool := c.isAlpha

/-- Model of unicode.IsDigit on its ASCII fragment. -/
def isDigitRune (c : Char) : Bool := c.isDigit

/-- The tokenPreds loop of tokenize: the first predicate matching the
character decides the new scanning state; index 0 (upper-case letter) sets
the state to nil so an upper-case letter never extends into a run, and a
character matching no predicate also leaves the state nil. -/
def classify (c : Char) : Option (Char → Bool) :=
  if isUpperRune c then none
  else if isLetterRune c then some isLetterRune
  else if isDigitRune c then some isDigitRune
  else if isWsp c then some isWsp
  else none

/-- The mid-scan buffer flush of tokenize: `if len(buf) > 0 && !isWsp(buf[0])`
the buffer is appended as one token, otherwise it is discarded. -/
def flushBuf (ms : List String) (buf : List Char) : List String :=
  match buf with
  | [] => ms
  | b :: _ => if isWsp b then ms else ms ++ [String.mk buf]

/-- The per-character loop of tokenize over the remaining runes, carrying the
active predicate `st`, the emitted tokens and the current buffer.  After the
loop the final buffer is flushed unconditionally (no whitespace guard, unlike
`flushBuf`) and the empty end-of-input marker is appended, exactly as the Go
code does. -/
def tokLoop : List Char → Option (Char → Bool) → List String → List Char → List String
  | [], _, ms, buf => (ms ++ [String.mk buf]) ++ [""]
  | c :: cs, st, ms, buf =>
    match st with
    | some f =>
      if f c then tokLoop cs st ms (buf ++ [c])
      else tokLoop cs (classify c) (flushBuf ms buf) [c]
    | none => tokLoop cs (classify c) (flushBuf ms buf) [c]

/-- tokenize of tokenizer.go (the Parser receiver is unused there; the Go
error result is always nil, so it is omitted). -/
def tokenize (code : String) : List String :=
  tokLoop code.data none [] []

/-- OpType of parser.go: associativity and position of an operator level. -/
inductive OpType where
  | InfixLeft
  | InfixRight
  | Prefix
  | Suffix
deriving DecidableEq, Repr

/-- Prec of parser.go: glyphs sharing one precedence level.  The Go field
`Type` is a reserved word in Lean and is spelled `ty` here. -/
structure Prec where
  Glyphs : List String
  ty : OpType
deriving DecidableEq, Repr

/-- Group of parser.go: a pair of grouping delimiters. -/
structure Group where
  Left : String
  Right : String
deriving DecidableEq, Repr

/-- Parser of parser.go: the grammar specification. -/
structure Parser where
  Operators : List Prec
  Parens : List Group
  Brackets : List Group
  AdjacentIsApplication : Bool
deriving DecidableEq, Repr

/-- Expr of parser.go as a closed sum.  `nilE` models a nil Go `Expr`
interface value (the zero value of a named return, which the Go code can
embed in a node or return alongside an error). -/
inductive Expr where
  | Var (Name : String)
  | Apply (Operator Operand : Expr)
  | Unary (Op : String) (Elem : Expr)
  | Binary (Op : String) (Left Right : Expr)
  | nilE
deriving DecidableEq, Repr

/-- Equation of parser.go. -/
structure Equation where
  Left : Expr
  Right : Expr
deriving DecidableEq, Repr

/-- Unexpected of parser.go: the single parse-error shape. -/
structure Unexpected where
  Found : String
  Expecting : String
deriving DecidableEq, Repr

/-- isVar of parser.go: every rune a letter or digit, and the token nonempty. -/
def isVar (s : String) : Bool :=
  s.data.all (fun c => isLetterRune c || isDigitRune c) && s != ""

/-- isOp of parser.go. -/
def isOp (s : String) (ops : List String) : Bool :=
  if s = "" then false else ops.contains s

/-- Go fmt `%#v` of a string: the text between double quotes, with a
backslash before any double quote or backslash (the only escapes the group
glyphs of this library can need). -/
def goQuote (s : String) : String :=
  "\"" ++ String.mk (s.data.foldr
    (fun c acc => if c = '"' || c = '\\' then '\\' :: c :: acc else c :: acc) []) ++ "\""

/-- The expected-token message parseSingle synthesizes when no atom starts
here: every prefix-operator glyph quoted, comma separated, then
"or a variable" when any glyph was listed. -/
def prefixOptions (p : Parser) : String :=
  let options := p.Operators.foldl
    (fun acc op =>
      match op.ty with
      | .Prefix => op.Glyphs.foldl (fun a g => a ++ "\"" ++ g ++ "\", ") acc
      | _ => acc) ""
  if options = "" then options else options ++ "or a variable"

/-- The `(lo, e, err)` triple the Go parse procedures return, or a Go
runtime panic (index out of range or slice bound violation), or exhaustion
of the embedding's fuel. -/
inductive POut where
  | ok (lo : List String) (e : Expr) (err : Option Unexpected)
  | panicked
  | outOfFuel
deriving DecidableEq, Repr

/-- One frame of the recursive descent: the two Go procedures and their
three `for` loops (the application chain of parseSingle's variable branch,
the InfixLeft folding loop, and the Suffix wrapping loop). -/
inductive Call where
  | single (tokens : List String) (inApp : Bool)
  | applyChain (lo : List String) (e : Expr)
  | expr (prec : Nat) (tokens : List String)
  | infixLeftChain (prec : Nat) (glyphs : List String) (lo : List String)
      (e : Expr) (err : Option Unexpected)
  | suffixChain (glyphs : List String) (lo : List String) (e : Expr)
deriving DecidableEq, Repr

/-- The token slice a frame works on (used as the termination measure). -/
def callToks : Call → List String
  | .single tokens _ => tokens
  | .applyChain lo _ => lo
  | .expr _ tokens => tokens
  | .infixLeftChain _ _ lo _ _ => lo
  | .suffixChain _ lo _ => lo

/-- Rank of a frame within a fixed token count: every recursive call that
keeps the token slice strictly drops the rank (table length `L` bounds the
expr ranks; truncated subtraction makes levels past the table rank 2). -/
def rankOf (L : Nat) : Call → Nat
  | .single _ _ => 1
  | .applyChain _ _ => 2
  | .expr prec _ => (L - prec) + 2
  | .infixLeftChain _ _ _ _ _ => 1
  | .suffixChain _ _ _ => 1

/-- Fuel that provably suffices for a frame: linear in the token count,
with the per-count budget one larger than the largest rank. -/
def fuelBound (p : Parser) (c : Call) : Nat :=
  (callToks c).length * (p.Operators.length + 3) + rankOf p.Operators.length c

/-- Shorthand for the length bound on every recursive-call result. -/
def RecLen (recur : Call → POut) : Prop :=
  ∀ c lo e err, recur c = .ok lo e err → lo.length ≤ (callToks c).length

/-- Interior of a transparent group in parseSingle: parse up to the closer,
test `lo[0] != group.Right` before ever inspecting `err` (so an inner error
can be replaced by the closer-mismatch error, or be carried through a
matching closer), reading `lo[0]` of an empty remainder is a panic. -/
def runParenInner (recur : Call → POut) (g : Group) (rest : List String) : POut :=
  match recur (.expr 0 rest) with
  | .ok lo e err =>
    match lo with
    | [] => .panicked
    | l0 :: lrest =>
      if l0 ≠ g.Right then .ok (l0 :: lrest) .nilE (some ⟨l0, goQuote g.Right⟩)
      else .ok lrest e err
  | r => r

/-- Interior of a non-empty structural group in parseSingle: as for the
transparent group, but the interior is wrapped in a Unary node named
open+close. -/
def runBracketInner (recur : Call → POut) (g : Group) (rest : List String) : POut :=
  match recur (.expr 0 rest) with
  | .ok lo e err =>
    match lo with
    | [] => .panicked
    | l0 :: lrest =>
      if l0 ≠ g.Right then .ok (l0 :: lrest) .nilE (some ⟨l0, goQuote g.Right⟩)
      else .ok lrest (.Unary (g.Left ++ g.Right) e) err
  | r => r

/-- Body of parseSingle, with `recur` standing for the recursive calls.
Reading `tokens[0]` of an empty slice is a panic. -/
def runSingle (recur : Call → POut) (p : Parser) (tokens : List String) (inApp : Bool) : POut :=
  match tokens with
  | [] => .panicked
  | t0 :: rest =>
    if isVar t0 then
      if inApp then .ok rest (.Var t0) none
      else recur (.applyChain rest (.Var t0))
    else
      match p.Parens.find? (fun g => t0 == g.Left) with
      | some g => runParenInner recur g rest
      | none =>
        match p.Brackets.find? (fun g => t0 == g.Left) with
        | some g =>
          match rest with
          | [] => runBracketInner recur g rest
          | t1 :: rest2 =>
            if t1 = g.Right then .ok rest2 (.Var (g.Left ++ g.Right)) none
            else runBracketInner recur g (t1 :: rest2)
        | none => .ok (t0 :: rest) .nilE (some ⟨t0, prefixOptions p⟩)

/-- Body of the application-chaining `for` loop in parseSingle's variable
branch: while the next token opens a group or (with the juxtaposition flag)
is itself identifier-shaped, parse one more atom with inApp set and fold it
left into an Apply node; an inner error returns the accumulated `e`
alongside the error, as the Go named returns do. -/
def runApplyChain (recur : Call → POut) (p : Parser) (lo : List String) (e : Expr) : POut :=
  match lo with
  | [] => .panicked
  | l0 :: _ =>
    if (p.Parens ++ p.Brackets).any (fun g => l0 == g.Left)
        || (isVar l0 && p.AdjacentIsApplication) then
      match recur (.single lo true) with
      | .ok lo2 e2 err =>
        match err with
        | some er => .ok lo2 e (some er)
        | none => recur (.applyChain lo2 (.Apply e e2))
      | r => r
    else .ok lo e none

/-- Body of the InfixLeft folding `for` loop of parseExpr.  The loop guard
reads `lo[0]` before inspecting the live `err` variable, so an empty
remainder panics even when an error is pending; a successful iteration
overwrites a pending error with nil, as the Go code does. -/
def runInfixLeftChain (recur : Call → POut) (prec : Nat) (glyphs : List String)
    (lo : List String) (e : Expr) (err : Option Unexpected) : POut :=
  match lo with
  | [] => .panicked
  | l0 :: rest =>
    if isOp l0 glyphs then
      match recur (.expr (prec + 1) rest) with
      | .ok lo2 e2 err2 =>
        match err2 with
        | some er => .ok lo2 .nilE (some er)
        | none => recur (.infixLeftChain prec glyphs lo2 (.Binary l0 e e2) none)
      | r => r
    else .ok lo e err

/-- Body of the Suffix wrapping `for` loop of parseExpr. -/
def runSuffixChain (recur : Call → POut) (glyphs : List String)
    (lo : List String) (e : Expr) : POut :=
  match lo with
  | [] => .panicked
  | l0 :: rest =>
    if isOp l0 glyphs then recur (.suffixChain glyphs rest (.Unary l0 e))
    else .ok lo e none

/-- Dispatch of parseExpr on the OpType of one operator-table entry `op`.
The InfixRight error path returns `lo[1:]` of the errored remainder, a
slice-bound panic when that remainder is empty, exactly as in the Go code. -/
def runExprOp (recur : Call → POut) (prec : Nat) (op : Prec) (tokens : List String) : POut :=
  match op.ty with
  | .Prefix =>
    match tokens with
    | [] => .panicked
    | glyph :: rest =>
      if isOp glyph op.Glyphs then
        match recur (.expr prec rest) with
        | .ok lo e err =>
          match err with
          | some er => .ok lo .nilE (some er)
          | none => .ok lo (.Unary glyph e) none
        | r => r
      else recur (.expr (prec + 1) (glyph :: rest))
  | .InfixLeft =>
    match recur (.expr (prec + 1) tokens) with
    | .ok lo e err => recur (.infixLeftChain prec op.Glyphs lo e err)
    | r => r
  | .InfixRight =>
    match recur (.expr (prec + 1) tokens) with
    | .ok lo e err =>
      match err with
      | some er => .ok lo .nilE (some er)
      | none =>
        match lo with
        | [] => .panicked
        | glyph :: rest =>
          if isOp glyph op.Glyphs then
            match recur (.expr prec rest) with
            | .ok lo2 e2 err2 =>
              match err2 with
              | some er =>
                match lo2 with
                | [] => .panicked
                | _ :: lrest => .ok lrest .nilE (some er)
              | none => .ok lo2 (.Binary glyph e e2) none
            | r => r
          else .ok (glyph :: rest) e none
    | r => r
  | .Suffix =>
    match recur (.expr (prec + 1) tokens) with
    | .ok lo e err =>
      match err with
      | some er => .ok lo .nilE (some er)
      | none => recur (.suffixChain op.Glyphs lo e)
    | r => r

/-- Body of parseExpr: past the last table entry delegate to parseSingle,
otherwise fetch the level's entry and dispatch on its OpType. -/
def runExpr (recur : Call → POut) (p : Parser) (prec : Nat) (tokens : List String) : POut :=
  if h : prec < p.Operators.length then
    runExprOp recur prec (p.Operators.get ⟨prec, h⟩) tokens
  else recur (.single tokens false)

/-- Dispatch one frame to its body. -/
def runStep (recur : Call → POut) (p : Parser) : Call → POut
  | .single tokens inApp => runSingle recur p tokens inApp
  | .applyChain lo e => runApplyChain recur p lo e
  | .expr prec tokens => runExpr recur p prec tokens
  | .infixLeftChain prec glyphs lo e err => runInfixLeftChain recur prec glyphs lo e err
  | .suffixChain glyphs lo e => runSuffixChain recur glyphs lo e

/-- The fuel-indexed recursive descent: every frame spends one unit of fuel. -/
def run (p : Parser) : Nat → Call → POut
  | 0, _ => .outOfFuel
  | fuel + 1, c => runStep (run p fuel) p c

/-- parseSingle of parser.go (fuel-indexed). -/
def parseSingle (p : Parser) (fuel : Nat) (tokens : List String) (inApp : Bool) : POut :=
  run p fuel (.single tokens inApp)

/-- parseExpr of parser.go (fuel-indexed). -/
def parseExpr (p : Parser) (fuel : Nat) (prec : Nat) (tokens : List String) : POut :=
  run p fuel (.expr prec tokens)

/-- Result of parseEqn: the remainder, the (nilable) Equation and the error,
or a panic, or fuel exhaustion. -/
inductive QOut where
  | ok (lo : List String) (r : Option Equation) (err : Option Unexpected)
  | panicked
  | outOfFuel
deriving DecidableEq, Repr

/-- parseEqn of parser.go: expression, the literal "=", expression. -/
def parseEqn (p : Parser) (fuel : Nat) (tokens : List String) : QOut :=
  match parseExpr p fuel 0 tokens with
  | .panicked => .panicked
  | .outOfFuel => .outOfFuel
  | .ok lo lhs err =>
    match err with
    | some er => .ok lo none (some er)
    | none =>
      match lo with
      | [] => .panicked
      | l0 :: rest =>
        if l0 ≠ "=" then .ok (l0 :: rest) none (some ⟨l0, "="⟩)
        else
          match parseExpr p fuel 0 rest with
          | .panicked => .panicked
          | .outOfFuel => .outOfFuel
          | .ok lo2 rhs err2 =>
            match err2 with
            | some er => .ok lo2 none (some er)
            | none => .ok lo2 (some ⟨lhs, rhs⟩) none

/-- Result of the ParseExpr entry point: the expression or the error, or a
panic, or fuel exhaustion. -/
inductive EOut where
  | ok (e : Expr)
  | err (u : Unexpected)
  | panicked
  | outOfFuel
deriving DecidableEq, Repr

/-- ParseExpr of parser.go: tokenize (whose Go error is always nil), parse
at level 0, and reject a remainder other than the lone end-of-input marker.
The trailing check reads `len(lo) > 1 || lo[0] != ""` only after `err` was
seen to be nil, in that order. -/
def ParseExpr (p : Parser) (fuel : Nat) (source : String) : EOut :=
  match parseExpr p fuel 0 (tokenize source) with
  | .panicked => .panicked
  | .outOfFuel => .outOfFuel
  | .ok lo e err =>
    match err with
    | some u => .err u
    | none =>
      if lo.length > 1 then .err ⟨lo.headD "", "end-of-input"⟩
      else
        match lo with
        | [] => .panicked
        | t :: _ => if t ≠ "" then .err ⟨t, "end-of-input"⟩ else .ok e

/-- Result of the Parse entry point. -/
inductive PResult where
  | done (r : Option Equation) (err : Option Unexpected)
  | panicked
  | outOfFuel
deriving DecidableEq, Repr

/-- Parse of parser.go.  Its trailing-tokens condition
`(len(lo) > 1 || lo[0] != "") && err == nil` evaluates `lo[0]` whenever
`len(lo) <= 1`, before the `err` test ever happens, so an empty remainder
panics here even when an error is pending. -/
def Parse (p : Parser) (fuel : Nat) (source : String) : PResult :=
  match parseEqn p fuel (tokenize source) with
  | .panicked => .panicked
  | .outOfFuel => .outOfFuel
  | .ok lo r err =>
    if lo.length > 1 then
      match err with
      | none => .done none (some ⟨lo.headD "", "end-of-input"⟩)
      | some u => .done r (some u)
    else
      match lo with
      | [] => .panicked
      | t :: _ =>
        if t ≠ "" then
          match err with
          | none => .done none (some ⟨t, "end-of-input"⟩)
          | some u => .done r (some u)
        else .done r err

/-- PEMDAS of parser.go: the default multiply-first grammar. -/
def PEMDAS : Parser where
  Parens := [⟨"(", ")"⟩, ⟨"[", "]"⟩]
  Brackets := [⟨"\x7b", "\x7d"⟩]
  Operators :=
    [⟨[","], .InfixLeft⟩,
     ⟨["+", "-"], .InfixLeft⟩,
     ⟨["*", "/", "\\"], .InfixLeft⟩,
     ⟨["^"], .InfixRight⟩,
     ⟨["-", "+"], .Prefix⟩,
     ⟨["'"], .Suffix⟩]
  AdjacentIsApplication := true


/-- C1: for the PEMDAS grammar, parseExpr implements the table's precedence
and associativity: "a+b*c" and "a*b+c" bind the product tighter, repeated
left-infix "+" nests left-deep, repeated right-infix "^" nests right-deep. -/
theorem c1_pemdas_precedence_and_associativity :
    ParseExpr PEMDAS 64 "a+b*c" =
      .ok (.Binary "+" (.Var "a") (.Binary "*" (.Var "b") (.Var "c")))
  ∧ ParseExpr PEMDAS 64 "a*b+c" =
      .ok (.Binary "+" (.Binary "*" (.Var "a") (.Var "b")) (.Var "c"))
  ∧ ParseExpr PEMDAS 64 "a+b+c+d" =
      .ok (.Binary "+" (.Binary "+" (.Binary "+" (.Var "a") (.Var "b")) (.Var "c")) (.Var "d"))
  ∧ ParseExpr PEMDAS 64 "a^b^c^d" =
      .ok (.Binary "^" (.Var "a")
        (.Binary "^" (.Var "b") (.Binary "^" (.Var "c") (.Var "d")))) := by
  refine ⟨by decide, by decide, by decide, by decide⟩

/-- C2 is a code bug: parsing "a^" with PEMDAS panics rather than returning
an Unexpected error.  The InfixRight error path returns `lo[1:]` of the
errored remainder, here the empty slice, and the enclosing InfixLeft loop
then reads `lo[0]` of that empty slice - a Go index-out-of-range panic.
The same panic escapes the Parse entry point. -/
theorem c2_parse_expr_panics_on_dangling_caret :
    ParseExpr PEMDAS 64 "a^" = .panicked
  ∧ Parse PEMDAS 64 "x=a^" = .panicked := by
  refine ⟨by decide, by decide⟩

/-- C3: with the juxtaposition flag set, atoms chain left-associatively into
Apply nodes, each operand a single atom: "log a b c" and (under the
upper-case-splitting tokenizer) "ABC". -/
theorem c3_application_chains_left :
    ParseExpr PEMDAS 64 "log a b c" =
      .ok (.Apply (.Apply (.Apply (.Var "log") (.Var "a")) (.Var "b")) (.Var "c"))
  ∧ ParseExpr PEMDAS 64 "ABC" =
      .ok (.Apply (.Apply (.Var "A") (.Var "B")) (.Var "C")) := by
  refine ⟨by decide, by decide⟩

/-- C4: prefix operators nest right-associatively by recursing at the same
level ("a++++b"), the suffix operator binds tighter than everything
including prefix negation ("-b'"), and chained suffixes wrap left to right
("a''"). -/
theorem c4_prefix_and_suffix_nesting :
    ParseExpr PEMDAS 64 "a++++b" =
      .ok (.Binary "+" (.Var "a") (.Unary "+" (.Unary "+" (.Unary "+" (.Var "b")))))
  ∧ ParseExpr PEMDAS 64 "a''" =
      .ok (.Unary "'" (.Unary "'" (.Var "a")))
  ∧ ParseExpr PEMDAS 64 "-b'" =
      .ok (.Unary "-" (.Unary "'" (.Var "b"))) := by
  refine ⟨by decide, by decide, by decide⟩

/-- C5: transparent groups contribute no AST node ("[([a+b])*c]"), an empty
structural group becomes a Var named open+close ("{}"), and a non-empty one
becomes a Unary wrapping the interior ("{a}"). -/
theorem c5_transparent_and_structural_groups :
    ParseExpr PEMDAS 96 "[([a+b])*c]" =
      .ok (.Binary "*" (.Binary "+" (.Var "a") (.Var "b")) (.Var "c"))
  ∧ ParseExpr PEMDAS 64 "\x7b\x7d" = .ok (.Var "\x7b\x7d")
  ∧ ParseExpr PEMDAS 64 "\x7ba\x7d" = .ok (.Unary "\x7b\x7d" (.Var "a")) := by
  refine ⟨by decide, by decide, by decide⟩

/-- C6 counterexample: the tokenizer does not merge a letter with a
following digit - "a1" yields the two tokens "a" and "1" before the marker,
not the single token "a1" the claim asserts. -/
theorem c6_letters_digits_split_counterexample :
    tokenize "a1" = ["a", "1", ""] ∧ tokenize "a1" ≠ ["a1", ""] := by
  refine ⟨by decide, by decide⟩

/-- C7 counterexample: a step of the descent for "({a]" (the structural
group branch of parseSingle, called on the interior tokens) produces the
error expecting the quoted "}", yet ParseExpr returns a different error
expecting the quoted ")": the transparent-group branch replaced the inner
error because it tests `lo[0] != group.Right` before testing `err`. -/
theorem c7_first_error_replaced_counterexample :
    parseSingle PEMDAS 32 ["\x7b", "a", "]", ""] false =
      .ok ["]", ""] .nilE (some ⟨"]", "\"\x7d\""⟩)
  ∧ ParseExpr PEMDAS 64 "(\x7ba]" = .err ⟨"]", "\")\""⟩
  ∧ (⟨"]", "\"\x7d\""⟩ : Unexpected) ≠ ⟨"]", "\")\""⟩ := by
  refine ⟨by decide, by decide, by decide⟩

/-- parseEqn returns a nil Equation whenever its result carries an error:
every error return site of the Go function leaves the named result `r` at
its nil zero value. -/
theorem parseEqn_err_none {p : Parser} {fuel : Nat} {tokens lo : List String}
    {r : Option Equation} {u : Unexpected}
    (h : parseEqn p fuel tokens = .ok lo r (some u)) : r = none := by
  unfold parseEqn at h
  split at h
  · exact absurd h (by simp)
  · exact absurd h (by simp)
  · split at h
    · simp only [QOut.ok.injEq] at h
      exact h.2.1.symm
    · split at h
      · exact absurd h (by simp)
      · split at h
        · simp only [QOut.ok.injEq] at h
          exact h.2.1.symm
        · split at h
          · exact absurd h (by simp)
          · exact absurd h (by simp)
          · split at h
            · simp only [QOut.ok.injEq] at h
              exact h.2.1.symm
            · simp only [QOut.ok.injEq] at h
              exact absurd h.2.2 (by simp)

/-- C7 amended: an Unexpected error from an inner parse is not always the
error returned.  A prefix, right-infix or suffix level returns a pending
inner error unchanged; a left-infix level passes it through unchanged only
when the next remaining token is not one of that level's glyphs -
otherwise its loop re-enters despite the pending error, so a successful
iteration overwrites the error with nil ("*a" parses to a malformed Binary
with nil left operand and no error) and an empty remainder panics (the C2
bug).  A group interior carries a pending error through a matching closer,
and a mismatched token at the closer position replaces the pending error
with the group's Unexpected naming the quoted closer.  Whenever Parse
returns an error the returned Equation is nil. -/
theorem c7_error_propagation_amended :
    (∀ (recur : Call → POut) (prec : Nat) (op : Prec) (glyph : String)
        (rest lo : List String) (e : Expr) (er : Unexpected),
      op.ty = .Prefix → isOp glyph op.Glyphs = true →
      recur (.expr prec rest) = .ok lo e (some er) →
      runExprOp recur prec op (glyph :: rest) = .ok lo .nilE (some er))
  ∧ (∀ (recur : Call → POut) (prec : Nat) (op : Prec)
        (tokens lo : List String) (e : Expr) (er : Unexpected),
      op.ty = .InfixRight →
      recur (.expr (prec + 1) tokens) = .ok lo e (some er) →
      runExprOp recur prec op tokens = .ok lo .nilE (some er))
  ∧ (∀ (recur : Call → POut) (prec : Nat) (op : Prec)
        (tokens lo : List String) (e : Expr) (er : Unexpected),
      op.ty = .Suffix →
      recur (.expr (prec + 1) tokens) = .ok lo e (some er) →
      runExprOp recur prec op tokens = .ok lo .nilE (some er))
  ∧ (∀ (recur : Call → POut) (prec : Nat) (glyphs : List String) (l0 : String)
        (lrest : List String) (e : Expr) (er : Unexpected),
      isOp l0 glyphs = false →
      runInfixLeftChain recur prec glyphs (l0 :: lrest) e (some er) =
        .ok (l0 :: lrest) e (some er))
  ∧ (∀ (recur : Call → POut) (prec : Nat) (glyphs : List String)
        (e : Expr) (er : Unexpected),
      runInfixLeftChain recur prec glyphs [] e (some er) = .panicked)
  ∧ ParseExpr PEMDAS 64 "*a" = .ok (.Binary "*" .nilE (.Var "a"))
  ∧ (∀ (recur : Call → POut) (g : Group) (rest lrest : List String)
        (e : Expr) (er : Unexpected),
      recur (.expr 0 rest) = .ok (g.Right :: lrest) e (some er) →
      runParenInner recur g rest = .ok lrest e (some er))
  ∧ (∀ (recur : Call → POut) (g : Group) (rest lrest : List String) (l0 : String)
        (e : Expr) (er : Unexpected),
      recur (.expr 0 rest) = .ok (l0 :: lrest) e (some er) → l0 ≠ g.Right →
      runParenInner recur g rest = .ok (l0 :: lrest) .nilE (some ⟨l0, goQuote g.Right⟩))
  ∧ (∀ (recur : Call → POut) (g : Group) (rest lrest : List String)
        (e : Expr) (er : Unexpected),
      recur (.expr 0 rest) = .ok (g.Right :: lrest) e (some er) →
      runBracketInner recur g rest = .ok lrest (.Unary (g.Left ++ g.Right) e) (some er))
  ∧ (∀ (recur : Call → POut) (g : Group) (rest lrest : List String) (l0 : String)
        (e : Expr) (er : Unexpected),
      recur (.expr 0 rest) = .ok (l0 :: lrest) e (some er) → l0 ≠ g.Right →
      runBracketInner recur g rest = .ok (l0 :: lrest) .nilE (some ⟨l0, goQuote g.Right⟩))
  ∧ (∀ (p : Parser) (fuel : Nat) (source : String) (r : Option Equation) (u : Unexpected),
      Parse p fuel source = .done r (some u) → r = none) := by
  refine ⟨?_, ?_, ?_, ?_, ?_, by decide, ?_, ?_, ?_, ?_, ?_⟩
  · intro recur prec op glyph rest lo e er hty hop hr
    simp [runExprOp.eq_def, hty, hop, hr]
  · intro recur prec op tokens lo e er hty hr
    simp [runExprOp.eq_def, hty, hr]
  · intro recur prec op tokens lo e er hty hr
    simp [runExprOp.eq_def, hty, hr]
  · intro recur prec glyphs l0 lrest e er hop
    simp [runInfixLeftChain, hop]
  · intro recur prec glyphs e er
    rfl
  · intro recur g rest lrest e er hr
    simp [runParenInner, hr]
  · intro recur g rest lrest l0 e er hr hne
    simp [runParenInner, hr, hne]
  · intro recur g rest lrest e er hr
    simp [runBracketInner, hr]
  · intro recur g rest lrest l0 e er hr hne
    simp [runBracketInner, hr, hne]
  · intro p fuel source r u h
    unfold Parse at h
    split at h
    · exact absurd h (by simp)
    · exact absurd h (by simp)
    · rename_i lo r0 err0 heq
      split at h
      · split at h
        · simp only [PResult.done.injEq] at h
          exact h.1.symm
        · rename_i u0
          simp only [PResult.done.injEq] at h
          obtain ⟨rfl, -⟩ := h
          exact parseEqn_err_none heq
      · split at h
        · exact absurd h (by simp)
        · split at h
          · split at h
            · simp only [PResult.done.injEq] at h
              exact h.1.symm
            · rename_i u0
              simp only [PResult.done.injEq] at h
              obtain ⟨rfl, -⟩ := h
              exact parseEqn_err_none heq
          · simp only [PResult.done.injEq] at h
            obtain ⟨rfl, h2⟩ := h
            rw [h2] at heq
            exact parseEqn_err_none heq

/-- Witness for C7 amended: the prefix-level propagation, the left-infix
pass-through, the closer replacement and the nil-Equation law each applied
at a concrete input. -/
theorem c7_error_propagation_amended_witness :
    runExprOp (fun _ => POut.ok ["x"] Expr.nilE (some ⟨"f", "g"⟩)) 0
        ⟨["-"], .Prefix⟩ ["-", "b"] = .ok ["x"] .nilE (some ⟨"f", "g"⟩)
  ∧ runInfixLeftChain (fun _ => POut.panicked) 1 ["+"] ["]", ""]
        (.Var "a") (some ⟨"f", "g"⟩) = .ok ["]", ""] (.Var "a") (some ⟨"f", "g"⟩)
  ∧ runParenInner (fun _ => POut.ok ["]", ""] Expr.nilE (some ⟨"f", "g"⟩))
        ⟨"(", ")"⟩ ["a"] = .ok ["]", ""] .nilE (some ⟨"]", goQuote ")"⟩)
  ∧ (none : Option Equation) = none :=
  ⟨c7_error_propagation_amended.1 _ 0 ⟨["-"], .Prefix⟩ "-" ["b"] ["x"] .nilE
      ⟨"f", "g"⟩ rfl (by decide) rfl,
   c7_error_propagation_amended.2.2.2.1 _ 1 ["+"] "]" [""] (.Var "a")
      ⟨"f", "g"⟩ (by decide),
   c7_error_propagation_amended.2.2.2.2.2.2.2.1 _ ⟨"(", ")"⟩ ["a"] [""] "]"
      Expr.nilE ⟨"f", "g"⟩ rfl (by decide),
   c7_error_propagation_amended.2.2.2.2.2.2.2.2.2.2 PEMDAS 64 "(" none
      ⟨"", goQuote ")"⟩ (by decide)⟩

/-- C8: parsing "r=({a+b]" with PEMDAS fails, and the error returned from
Parse is Unexpected with Found "]" and Expecting the quoted closing
delimiter (quote, right parenthesis, quote). -/
theorem c8_mismatched_closer_error :
    Parse PEMDAS 96 "r=(\x7ba+b]" = .done none (some ⟨"]", "\")\""⟩) := by
  decide

/-- C9 is a code bug: the final buffer flush of tokenize lacks the
whitespace guard of the mid-scan flush, so "a " emits the whitespace token
" " before the end-of-input marker, and ParseExpr consequently rejects the
input as having trailing tokens. -/
theorem c9_trailing_whitespace_token_emitted :
    tokenize "a " = ["a", " ", ""]
  ∧ ParseExpr PEMDAS 64 "a " = .err ⟨" ", "end-of-input"⟩ := by
  refine ⟨by decide, by decide⟩


/-- A digit character is not an upper-case letter. -/
theorem digit_not_upper {c : Char} (h : isDigitRune c = true) : isUpperRune c = false := by
  simp only [isDigitRune, Char.isDigit, Bool.and_eq_true, decide_eq_true_eq, ge_iff_le] at h
  simp only [isUpperRune, Char.isUpper, Bool.and_eq_false_iff, decide_eq_false_iff_not, ge_iff_le]
  exact Or.inl (fun hc => absurd (UInt32.le_trans hc h.2) (by decide))

/-- A digit character is not a letter. -/
theorem digit_not_letter {c : Char} (h : isDigitRune c = true) : isLetterRune c = false := by
  simp only [isDigitRune, Char.isDigit, Bool.and_eq_true, decide_eq_true_eq, ge_iff_le] at h
  simp only [isLetterRune, Char.isAlpha, Char.isUpper, Char.isLower, Bool.or_eq_false_iff,
    Bool.and_eq_false_iff, decide_eq_false_iff_not, ge_iff_le]
  exact ⟨Or.inl (fun hc => absurd (UInt32.le_trans hc h.2) (by decide)),
         Or.inl (fun hc => absurd (UInt32.le_trans hc h.2) (by decide))⟩

/-- The tokenPreds loop sends a digit to the digit class. -/
theorem classify_digit {c : Char} (h : isDigitRune c = true) :
    classify c = some isDigitRune := by
  simp [classify, digit_not_upper h, digit_not_letter h, h]

/-- The tokenPreds loop sends a non-upper-case letter to the letter class. -/
theorem classify_letter {c : Char} (hl : isLetterRune c = true) (hu : isUpperRune c = false) :
    classify c = some isLetterRune := by
  simp [classify, hl, hu]

/-- A run of characters all matching the active predicate only extends the
buffer, and the loop then flushes buffer and marker. -/
theorem tokLoop_sameclass (f : Char → Bool) :
    ∀ (cs : List Char) (ms : List String) (buf : List Char), (∀ x ∈ cs, f x = true) →
      tokLoop cs (some f) ms buf = ms ++ [String.mk (buf ++ cs), ""] := by
  intro cs
  induction cs with
  | nil => intro ms buf _; simp [tokLoop]
  | cons c cs ih =>
    intro ms buf h
    have hc : f c = true := h c (by simp)
    simp only [tokLoop, hc, if_true]
    rw [ih ms (buf ++ [c]) (fun x hx => h x (by simp [hx]))]
    simp

/-- C6 amended: a maximal run of same-class identifier characters is one
token, but letters and digits are distinct classes that do not mix: a run
of digits forms one token, a run of letters beginning with a non-upper-case
letter forms one token (each shown for a run comprising the whole input),
while a letter followed by a digit, as in "a1", forms two tokens. -/
theorem c6_same_class_runs_merge (c : Char) (cs : List Char) :
    (isDigitRune c = true → (∀ x ∈ cs, isDigitRune x = true) →
      tokenize (String.mk (c :: cs)) = [String.mk (c :: cs), ""])
  ∧ (isLetterRune c = true → isUpperRune c = false → (∀ x ∈ cs, isLetterRune x = true) →
      tokenize (String.mk (c :: cs)) = [String.mk (c :: cs), ""])
  ∧ tokenize "a1" = ["a", "1", ""] := by
  refine ⟨?_, ?_, by decide⟩
  · intro hc hcs
    show tokLoop (c :: cs) none [] [] = _
    simp only [tokLoop, flushBuf]
    rw [classify_digit hc, tokLoop_sameclass isDigitRune cs [] [c] hcs]
    simp
  · intro hl hu hcs
    show tokLoop (c :: cs) none [] [] = _
    simp only [tokLoop, flushBuf]
    rw [classify_letter hl hu, tokLoop_sameclass isLetterRune cs [] [c] hcs]
    simp

/-- Witness for C6 amended: a two-digit run and a two-letter run each
tokenize to a single token before the marker. -/
theorem c6_same_class_runs_merge_witness :
    tokenize (String.mk ['1', '2']) = [String.mk ['1', '2'], ""]
  ∧ tokenize (String.mk ['a', 'b']) = [String.mk ['a', 'b'], ""] :=
  ⟨(c6_same_class_runs_merge '1' ['2']).1 (by decide) (by decide),
   (c6_same_class_runs_merge 'a' ['b']).2.1 (by decide) (by decide) (by decide)⟩


/-- The transparent-group interior never lengthens the remainder. -/
theorem runParenInner_length {recur : Call → POut} {g : Group} {rest lo : List String}
    {e : Expr} {err : Option Unexpected} (hrec : RecLen recur)
    (h : runParenInner recur g rest = .ok lo e err) : lo.length ≤ rest.length := by
  unfold runParenInner at h
  split at h
  · rename_i lo1 e1 err1 hr
    have h1 : lo1.length ≤ rest.length := hrec _ _ _ _ hr
    split at h
    · exact absurd h (by simp)
    · rename_i l0 lrest
      split at h
      · simp only [POut.ok.injEq] at h
        obtain ⟨rfl, rfl, rfl⟩ := h
        simpa using h1
      · simp only [POut.ok.injEq] at h
        obtain ⟨rfl, rfl, rfl⟩ := h
        simp at h1
        omega
  · rename_i x y
    exact (y _ _ _ h).elim

/-- The structural-group interior never lengthens the remainder. -/
theorem runBracketInner_length {recur : Call → POut} {g : Group} {rest lo : List String}
    {e : Expr} {err : Option Unexpected} (hrec : RecLen recur)
    (h : runBracketInner recur g rest = .ok lo e err) : lo.length ≤ rest.length := by
  unfold runBracketInner at h
  split at h
  · rename_i lo1 e1 err1 hr
    have h1 : lo1.length ≤ rest.length := hrec _ _ _ _ hr
    split at h
    · exact absurd h (by simp)
    · rename_i l0 lrest
      split at h
      · simp only [POut.ok.injEq] at h
        obtain ⟨rfl, rfl, rfl⟩ := h
        simpa using h1
      · simp only [POut.ok.injEq] at h
        obtain ⟨rfl, rfl, rfl⟩ := h
        simp at h1
        omega
  · rename_i x y
    exact (y _ _ _ h).elim

/-- parseSingle never lengthens the remainder. -/
theorem runSingle_length {recur : Call → POut} {p : Parser} {tokens lo : List String}
    {inApp : Bool} {e : Expr} {err : Option Unexpected} (hrec : RecLen recur)
    (h : runSingle recur p tokens inApp = .ok lo e err) : lo.length ≤ tokens.length := by
  cases tokens with
  | nil => simp [runSingle] at h
  | cons t0 rest =>
    simp only [runSingle] at h
    split at h
    · split at h
      · simp only [POut.ok.injEq] at h
        obtain ⟨rfl, rfl, rfl⟩ := h
        simp
      · have := hrec _ _ _ _ h
        simp only [callToks] at this
        simp only [List.length_cons]
        omega
    · split at h
      · rename_i g hg
        have := runParenInner_length hrec h
        simp only [List.length_cons]
        omega
      · split at h
        · rename_i g hb
          split at h
          · have := runBracketInner_length hrec h
            simp only [List.length_nil] at this
            simp only [List.length_cons]
            omega
          · rename_i t1 rest2
            split at h
            · simp only [POut.ok.injEq] at h
              obtain ⟨rfl, rfl, rfl⟩ := h
              simp only [List.length_cons]
              omega
            · have := runBracketInner_length hrec h
              simp only [List.length_cons] at this ⊢
              omega
        · simp only [POut.ok.injEq] at h
          obtain ⟨rfl, rfl, rfl⟩ := h
          exact le_refl _

/-- The application chain never lengthens the remainder. -/
theorem runApplyChain_length {recur : Call → POut} {p : Parser} {lo lo2 : List String}
    {e e2 : Expr} {err : Option Unexpected} (hrec : RecLen recur)
    (h : runApplyChain recur p lo e = .ok lo2 e2 err) : lo2.length ≤ lo.length := by
  cases lo with
  | nil => simp [runApplyChain] at h
  | cons l0 lrest =>
    simp only [runApplyChain] at h
    split at h
    · split at h
      · rename_i lo1 e1 err1 hr
        have h1 : lo1.length ≤ (l0 :: lrest).length := hrec _ _ _ _ hr
        split at h
        · simp only [POut.ok.injEq] at h
          obtain ⟨rfl, rfl, rfl⟩ := h
          exact h1
        · have := hrec _ _ _ _ h
          simp only [callToks] at this
          omega
      · rename_i x y
        exact (y _ _ _ h).elim
    · simp only [POut.ok.injEq] at h
      obtain ⟨rfl, rfl, rfl⟩ := h
      exact le_refl _

/-- The InfixLeft folding loop never lengthens the remainder. -/
theorem runInfixLeftChain_length {recur : Call → POut} {prec : Nat} {glyphs : List String}
    {lo lo2 : List String} {e e2 : Expr} {err err2 : Option Unexpected} (hrec : RecLen recur)
    (h : runInfixLeftChain recur prec glyphs lo e err = .ok lo2 e2 err2) :
    lo2.length ≤ lo.length := by
  cases lo with
  | nil => simp [runInfixLeftChain] at h
  | cons l0 lrest =>
    simp only [runInfixLeftChain] at h
    split at h
    · split at h
      · rename_i lo1 e1 err1 hr
        have h1 : lo1.length ≤ lrest.length := hrec _ _ _ _ hr
        split at h
        · simp only [POut.ok.injEq] at h
          obtain ⟨rfl, rfl, rfl⟩ := h
          simp only [List.length_cons]
          omega
        · have := hrec _ _ _ _ h
          simp only [callToks] at this
          simp only [List.length_cons]
          omega
      · rename_i x y
        exact (y _ _ _ h).elim
    · simp only [POut.ok.injEq] at h
      obtain ⟨rfl, rfl, rfl⟩ := h
      exact le_refl _

/-- The Suffix wrapping loop never lengthens the remainder. -/
theorem runSuffixChain_length {recur : Call → POut} {glyphs : List String}
    {lo lo2 : List String} {e e2 : Expr} {err2 : Option Unexpected} (hrec : RecLen recur)
    (h : runSuffixChain recur glyphs lo e = .ok lo2 e2 err2) : lo2.length ≤ lo.length := by
  cases lo with
  | nil => simp [runSuffixChain] at h
  | cons l0 lrest =>
    simp only [runSuffixChain] at h
    split at h
    · have := hrec _ _ _ _ h
      simp only [callToks] at this
      simp only [List.length_cons]
      omega
    · simp only [POut.ok.injEq] at h
      obtain ⟨rfl, rfl, rfl⟩ := h
      exact le_refl _

/-- Operator dispatch never lengthens the remainder. -/
theorem runExprOp_length {recur : Call → POut} {prec : Nat} {op : Prec} {tokens lo : List String}
    {e : Expr} {err : Option Unexpected} (hrec : RecLen recur)
    (h : runExprOp recur prec op tokens = .ok lo e err) : lo.length ≤ tokens.length := by
  obtain ⟨glyphs, ty⟩ := op
  cases ty with
  | Prefix =>
    simp only [runExprOp] at h
    cases tokens with
    | nil => exact absurd h (by simp)
    | cons glyph rest =>
      simp only at h
      split at h
      · split at h
        · rename_i lo1 e1 err1 hr
          have h1 := hrec _ _ _ _ hr
          simp only [callToks] at h1
          split at h
          · simp only [POut.ok.injEq] at h
            obtain ⟨rfl, rfl, rfl⟩ := h
            simp only [List.length_cons]
            omega
          · simp only [POut.ok.injEq] at h
            obtain ⟨rfl, rfl, rfl⟩ := h
            simp only [List.length_cons]
            omega
        · rename_i x y
          exact (y _ _ _ h).elim
      · have := hrec _ _ _ _ h
        simpa [callToks] using this
  | InfixLeft =>
    simp only [runExprOp] at h
    split at h
    · rename_i lo1 e1 err1 hr
      have h1 := hrec _ _ _ _ hr
      simp only [callToks] at h1
      have h2 := hrec _ _ _ _ h
      simp only [callToks] at h2
      omega
    · rename_i x y
      exact (y _ _ _ h).elim
  | InfixRight =>
    simp only [runExprOp] at h
    split at h
    · rename_i lo1 e1 err1 hr
      have h1 := hrec _ _ _ _ hr
      simp only [callToks] at h1
      split at h
      · simp only [POut.ok.injEq] at h
        obtain ⟨rfl, rfl, rfl⟩ := h
        exact h1
      · split at h
        · exact absurd h (by simp)
        · rename_i glyph rest
          split at h
          · split at h
            · rename_i lo2 e2 err2 hr2
              have h2 := hrec _ _ _ _ hr2
              simp only [callToks] at h2
              split at h
              · split at h
                · exact absurd h (by simp)
                · simp only [POut.ok.injEq] at h
                  obtain ⟨rfl, rfl, rfl⟩ := h
                  rename_i lx lrest _
                  simp only [List.length_cons] at h1 h2 ⊢
                  omega
              · simp only [POut.ok.injEq] at h
                obtain ⟨rfl, rfl, rfl⟩ := h
                simp only [List.length_cons] at h1 ⊢
                omega
            · rename_i x y
              exact (y _ _ _ h).elim
          · simp only [POut.ok.injEq] at h
            obtain ⟨rfl, rfl, rfl⟩ := h
            exact h1
    · rename_i x y
      exact (y _ _ _ h).elim
  | Suffix =>
    simp only [runExprOp] at h
    split at h
    · rename_i lo1 e1 err1 hr
      have h1 := hrec _ _ _ _ hr
      simp only [callToks] at h1
      split at h
      · simp only [POut.ok.injEq] at h
        obtain ⟨rfl, rfl, rfl⟩ := h
        exact h1
      · have h2 := hrec _ _ _ _ h
        simp only [callToks] at h2
        omega
    · rename_i x y
      exact (y _ _ _ h).elim

/-- parseExpr never lengthens the remainder. -/
theorem runExpr_length {recur : Call → POut} {p : Parser} {prec : Nat} {tokens lo : List String}
    {e : Expr} {err : Option Unexpected} (hrec : RecLen recur)
    (h : runExpr recur p prec tokens = .ok lo e err) : lo.length ≤ tokens.length := by
  unfold runExpr at h
  split at h
  · exact runExprOp_length hrec h
  · have := hrec _ _ _ _ h
    simpa [callToks] using this

/-- Every frame's successful result has a remainder no longer than its
input slice. -/
theorem run_ok_length (p : Parser) :
    ∀ (fuel : Nat), RecLen (run p fuel) := by
  intro fuel
  induction fuel with
  | zero => intro c lo e err h; exact absurd h (by simp [run])
  | succ f ih =>
    intro c lo e err h
    cases c with
    | single tokens inApp => exact runSingle_length ih h
    | applyChain lo0 e0 => exact runApplyChain_length ih h
    | expr prec tokens => exact runExpr_length ih h
    | infixLeftChain prec glyphs lo0 e0 err0 => exact runInfixLeftChain_length ih h
    | suffixChain glyphs lo0 e0 => exact runSuffixChain_length ih h


/-- parseSingle consumes at least one token on full success (no pending
error): every success path begins by consuming `tokens[0]`. -/
theorem runSingle_consumes {recur : Call → POut} {p : Parser} {tokens lo : List String}
    {inApp : Bool} {e : Expr} (hrec : RecLen recur)
    (h : runSingle recur p tokens inApp = .ok lo e none) : lo.length < tokens.length := by
  cases tokens with
  | nil => simp [runSingle] at h
  | cons t0 rest =>
    simp only [runSingle] at h
    split at h
    · split at h
      · simp only [POut.ok.injEq] at h
        obtain ⟨rfl, rfl, -⟩ := h
        simp
      · have := hrec _ _ _ _ h
        simp only [callToks] at this
        simp only [List.length_cons]
        omega
    · split at h
      · rename_i g hg
        unfold runParenInner at h
        split at h
        · rename_i lo1 e1 err1 hr
          have h1 : lo1.length ≤ rest.length := hrec _ _ _ _ hr
          split at h
          · exact absurd h (by simp)
          · split at h
            · simp only [POut.ok.injEq] at h
              obtain ⟨rfl, rfl, h3⟩ := h
              exact absurd h3 (by simp)
            · simp only [POut.ok.injEq] at h
              obtain ⟨rfl, rfl, rfl⟩ := h
              simp only [List.length_cons] at h1 ⊢
              omega
        · rename_i x y
          exact (y _ _ _ h).elim
      · split at h
        · rename_i g hbk
          split at h
          · unfold runBracketInner at h
            split at h
            · rename_i lo1 e1 err1 hr
              have h1 := hrec _ _ _ _ hr
              simp only [callToks, List.length_nil] at h1
              split at h
              · exact absurd h (by simp)
              · split at h
                · simp only [POut.ok.injEq] at h
                  obtain ⟨rfl, rfl, h3⟩ := h
                  exact absurd h3 (by simp)
                · simp only [POut.ok.injEq] at h
                  obtain ⟨rfl, rfl, rfl⟩ := h
                  simp at h1
            · rename_i x y
              exact (y _ _ _ h).elim
          · rename_i t1 rest2
            split at h
            · simp only [POut.ok.injEq] at h
              obtain ⟨rfl, rfl, -⟩ := h
              simp only [List.length_cons]
              omega
            · unfold runBracketInner at h
              split at h
              · rename_i lo1 e1 err1 hr
                have h1 := hrec _ _ _ _ hr
                simp only [callToks, List.length_cons] at h1
                split at h
                · exact absurd h (by simp)
                · split at h
                  · simp only [POut.ok.injEq] at h
                    obtain ⟨rfl, rfl, h3⟩ := h
                    exact absurd h3 (by simp)
                  · simp only [POut.ok.injEq] at h
                    obtain ⟨rfl, rfl, rfl⟩ := h
                    simp only [List.length_cons] at h1 ⊢
                    omega
              · rename_i x y
                exact (y _ _ _ h).elim
        · simp only [POut.ok.injEq] at h
          obtain ⟨rfl, rfl, h3⟩ := h
          exact absurd h3 (by simp)

/-- parseSingle at any fuel consumes at least one token on full success. -/
theorem run_single_consumes {p : Parser} {fuel : Nat} {tokens lo : List String}
    {inApp : Bool} {e : Expr}
    (h : run p fuel (.single tokens inApp) = .ok lo e none) : lo.length < tokens.length := by
  cases fuel with
  | zero => exact absurd h (by simp [run])
  | succ f => exact runSingle_consumes (run_ok_length p f) h

/-- Arithmetic step for the fuel bound: the frame moved to a strictly
shorter token slice. -/
theorem fuel_step_len {m n r s K fuel : Nat} (hmn : m < n) (hrs : s + 1 ≤ K + r)
    (hb : n * K + r ≤ fuel + 1) : m * K + s ≤ fuel := by
  have h1 : (m + 1) * K ≤ n * K := Nat.mul_le_mul_right K hmn
  have h2 : (m + 1) * K = m * K + K := by ring
  omega

/-- Arithmetic step for the fuel bound: the token slice did not grow and
the frame rank strictly dropped. -/
theorem fuel_step_le {m n r s K fuel : Nat} (hmn : m ≤ n) (hrs : s + 1 ≤ r)
    (hb : n * K + r ≤ fuel + 1) : m * K + s ≤ fuel := by
  have h1 : m * K ≤ n * K := Nat.mul_le_mul_right K hmn
  omega

/-- The transparent-group interior completes whenever its one recursive
parse completes. -/
theorem runParenInner_ne_oof {recur : Call → POut} {g : Group} {rest : List String}
    (h : recur (.expr 0 rest) ≠ .outOfFuel) : runParenInner recur g rest ≠ .outOfFuel := by
  unfold runParenInner
  cases hr : recur (.expr 0 rest) with
  | ok lo e err =>
    cases lo with
    | nil => simp
    | cons l0 lrest =>
      dsimp only
      split <;> simp
  | panicked => simp
  | outOfFuel => exact absurd hr h

/-- The structural-group interior completes whenever its one recursive
parse completes. -/
theorem runBracketInner_ne_oof {recur : Call → POut} {g : Group} {rest : List String}
    (h : recur (.expr 0 rest) ≠ .outOfFuel) : runBracketInner recur g rest ≠ .outOfFuel := by
  unfold runBracketInner
  cases hr : recur (.expr 0 rest) with
  | ok lo e err =>
    cases lo with
    | nil => simp
    | cons l0 lrest =>
      dsimp only
      split <;> simp
  | panicked => simp
  | outOfFuel => exact absurd hr h

/-- Fuel `fuelBound p c` always suffices: the descent from frame `c` never
runs out of fuel, because every recursive call either strictly consumes a
token or keeps the token count and strictly drops in rank (deeper
precedence level or loop position). -/
theorem run_enough (p : Parser) : ∀ (fuel : Nat) (c : Call), fuelBound p c ≤ fuel →
    run p fuel c ≠ .outOfFuel := by
  intro fuel
  induction fuel with
  | zero =>
    intro c hb
    cases c <;> simp only [fuelBound, rankOf, callToks] at hb <;> omega
  | succ fuel ih =>
    intro c hb
    show runStep (run p fuel) p c ≠ .outOfFuel
    cases c with
    | single tokens inApp =>
      simp only [runStep]
      cases tokens with
      | nil => simp [runSingle]
      | cons t0 rest =>
        simp only [runSingle]
        simp only [fuelBound, rankOf, callToks, List.length_cons] at hb
        split
        · split
          · simp
          · apply ih
            simp only [fuelBound, rankOf, callToks]
            exact fuel_step_len (by omega) (by omega) hb
        · have hinner : ∀ rest2 : List String, rest2.length < rest.length + 1 →
              run p fuel (.expr 0 rest2) ≠ .outOfFuel := by
            intro rest2 hl
            apply ih
            simp only [fuelBound, rankOf, callToks]
            exact fuel_step_len (by omega) (by omega) hb
          split
          · exact runParenInner_ne_oof (hinner rest (by omega))
          · split
            · cases rest with
              | nil =>
                dsimp only
                exact runBracketInner_ne_oof (hinner [] (by omega))
              | cons t1 rest2 =>
                dsimp only
                split
                · simp
                · exact runBracketInner_ne_oof (hinner (t1 :: rest2) (by omega))
            · simp
    | applyChain lo e0 =>
      simp only [runStep]
      cases lo with
      | nil => simp [runApplyChain]
      | cons l0 lrest =>
        simp only [runApplyChain]
        simp only [fuelBound, rankOf, callToks, List.length_cons] at hb
        split
        · have h1 : run p fuel (.single (l0 :: lrest) true) ≠ .outOfFuel := by
            apply ih
            simp only [fuelBound, rankOf, callToks, List.length_cons]
            exact fuel_step_le (le_refl _) (by omega) hb
          cases hr : run p fuel (.single (l0 :: lrest) true) with
          | ok lo2 e2 err =>
            dsimp only
            cases err with
            | some er => simp
            | none =>
              dsimp only
              apply ih
              have hcons : lo2.length < (l0 :: lrest).length := run_single_consumes hr
              simp only [List.length_cons] at hcons
              simp only [fuelBound, rankOf, callToks]
              exact fuel_step_len (by omega) (by omega) hb
          | panicked => simp
          | outOfFuel => exact absurd hr h1
        · simp
    | expr prec tokens =>
      simp only [runStep, runExpr]
      split
      · rename_i hlt
        simp only [fuelBound, rankOf, callToks] at hb
        cases hty : (p.Operators.get ⟨prec, hlt⟩).ty with
        | Prefix =>
          simp only [runExprOp, hty]
          cases tokens with
          | nil => simp
          | cons glyph rest =>
            simp only [List.length_cons] at hb
            dsimp only
            split
            · have h1 : run p fuel (.expr prec rest) ≠ .outOfFuel := by
                apply ih
                simp only [fuelBound, rankOf, callToks]
                exact fuel_step_len (by omega) (by omega) hb
              cases hr : run p fuel (.expr prec rest) with
              | ok lo1 e1 err1 =>
                dsimp only
                cases err1 <;> simp
              | panicked => simp
              | outOfFuel => exact absurd hr h1
            · apply ih
              simp only [fuelBound, rankOf, callToks, List.length_cons]
              exact fuel_step_le (le_refl _) (by omega) hb
        | InfixLeft =>
          simp only [runExprOp, hty]
          have h1 : run p fuel (.expr (prec + 1) tokens) ≠ .outOfFuel := by
            apply ih
            simp only [fuelBound, rankOf, callToks]
            exact fuel_step_le (le_refl _) (by omega) hb
          cases hr : run p fuel (.expr (prec + 1) tokens) with
          | ok lo1 e1 err1 =>
            dsimp only
            apply ih
            have hlen : lo1.length ≤ tokens.length := by
              have := run_ok_length p fuel _ _ _ _ hr
              simpa [callToks] using this
            simp only [fuelBound, rankOf, callToks]
            exact fuel_step_le hlen (by omega) hb
          | panicked => simp
          | outOfFuel => exact absurd hr h1
        | InfixRight =>
          simp only [runExprOp, hty]
          have h1 : run p fuel (.expr (prec + 1) tokens) ≠ .outOfFuel := by
            apply ih
            simp only [fuelBound, rankOf, callToks]
            exact fuel_step_le (le_refl _) (by omega) hb
          cases hr : run p fuel (.expr (prec + 1) tokens) with
          | ok lo1 e1 err1 =>
            dsimp only
            cases err1 with
            | some er => simp
            | none =>
              dsimp only
              cases lo1 with
              | nil => simp
              | cons glyph rest1 =>
                have hlen : rest1.length + 1 ≤ tokens.length := by
                  have := run_ok_length p fuel _ _ _ _ hr
                  simpa [callToks] using this
                dsimp only
                split
                · have h2 : run p fuel (.expr prec rest1) ≠ .outOfFuel := by
                    apply ih
                    simp only [fuelBound, rankOf, callToks]
                    exact fuel_step_len (by omega) (by omega) hb
                  cases hr2 : run p fuel (.expr prec rest1) with
                  | ok lo2 e2 err2 =>
                    dsimp only
                    cases err2 with
                    | some er => cases lo2 <;> simp
                    | none => simp
                  | panicked => simp
                  | outOfFuel => exact absurd hr2 h2
                · simp
          | panicked => simp
          | outOfFuel => exact absurd hr h1
        | Suffix =>
          simp only [runExprOp, hty]
          have h1 : run p fuel (.expr (prec + 1) tokens) ≠ .outOfFuel := by
            apply ih
            simp only [fuelBound, rankOf, callToks]
            exact fuel_step_le (le_refl _) (by omega) hb
          cases hr : run p fuel (.expr (prec + 1) tokens) with
          | ok lo1 e1 err1 =>
            dsimp only
            cases err1 with
            | some er => simp
            | none =>
              dsimp only
              apply ih
              have hlen : lo1.length ≤ tokens.length := by
                have := run_ok_length p fuel _ _ _ _ hr
                simpa [callToks] using this
              simp only [fuelBound, rankOf, callToks]
              exact fuel_step_le hlen (by omega) hb
          | panicked => simp
          | outOfFuel => exact absurd hr h1
      · rename_i hge
        apply ih
        simp only [fuelBound, rankOf, callToks] at hb ⊢
        exact fuel_step_le (le_refl _) (by omega) hb
    | infixLeftChain prec glyphs lo e0 err0 =>
      simp only [runStep]
      cases lo with
      | nil => simp [runInfixLeftChain]
      | cons l0 lrest =>
        simp only [runInfixLeftChain]
        simp only [fuelBound, rankOf, callToks, List.length_cons] at hb
        split
        · have h1 : run p fuel (.expr (prec + 1) lrest) ≠ .outOfFuel := by
            apply ih
            simp only [fuelBound, rankOf, callToks]
            exact fuel_step_len (by omega) (by omega) hb
          cases hr : run p fuel (.expr (prec + 1) lrest) with
          | ok lo2 e2 err2 =>
            dsimp only
            cases err2 with
            | some er => simp
            | none =>
              dsimp only
              apply ih
              have hlen : lo2.length ≤ lrest.length := by
                have := run_ok_length p fuel _ _ _ _ hr
                simpa [callToks] using this
              simp only [fuelBound, rankOf, callToks]
              exact fuel_step_len (by omega) (by omega) hb
          | panicked => simp
          | outOfFuel => exact absurd hr h1
        · simp
    | suffixChain glyphs lo e0 =>
      simp only [runStep]
      cases lo with
      | nil => simp [runSuffixChain]
      | cons l0 lrest =>
        simp only [runSuffixChain]
        simp only [fuelBound, rankOf, callToks, List.length_cons] at hb
        split
        · apply ih
          simp only [fuelBound, rankOf, callToks]
          exact fuel_step_len (by omega) (by omega) hb
        · simp


/-- C10: for every grammar specification and every token sequence,
parseExpr and parseSingle terminate: fuel linear in the token count - one
budget of table-length-plus-three per token, the embedding of the
well-founded measure (remaining tokens, remaining precedence levels) -
always suffices, because every recursive call either strictly consumes a
token or keeps the token count while moving to a strictly smaller rank
(deeper precedence level or loop position). -/
theorem c10_descent_terminates (p : Parser) (prec : Nat) (tokens : List String)
    (inApp : Bool) (fuel : Nat)
    (h : (tokens.length + 1) * (p.Operators.length + 3) ≤ fuel) :
    parseExpr p fuel prec tokens ≠ POut.outOfFuel
  ∧ parseSingle p fuel tokens inApp ≠ POut.outOfFuel := by
  have hsplit : (tokens.length + 1) * (p.Operators.length + 3)
      = tokens.length * (p.Operators.length + 3) + (p.Operators.length + 3) := by ring
  constructor
  · apply run_enough
    simp only [fuelBound, rankOf, callToks]
    omega
  · apply run_enough
    simp only [fuelBound, rankOf, callToks]
    omega

/-- Witness for C10: with fuel 100 the PEMDAS descent on the tokens of "a"
completes at both entry procedures. -/
theorem c10_descent_terminates_witness :
    parseExpr PEMDAS 100 0 ["a", ""] ≠ POut.outOfFuel
  ∧ parseSingle PEMDAS 100 ["a", ""] false ≠ POut.outOfFuel :=
  c10_descent_terminates PEMDAS 0 ["a", ""] false 100 (by decide)

end Mast
